import Mathlib

/-!
Shallow embedding of the BrainMath integer-math module
(src/BrainMath/IntMath.hpp).

A C++ integer type T is modelled by a pair of parameters:
  s : Bool — signedness (true = signed, two's complement)
  w : Nat  — bit width (8/16/32/64 in the source; kept general here)
Values of T are integers x with minv s w ≤ x ≤ maxv s w.
C++ division on T truncates toward zero, so it is embedded as Int.tdiv.
Wraparound (the native-width truncated result of an overflowing
operation) is embedded by the function wrap below: reduction modulo 2^w
for unsigned types and the two's-complement representative for signed
types.  The errno / floating-point-exception side channel touched by
sqrt is modelled by explicit state passing of an FpEnv record.
-/

namespace BrainMath
namespace IntMath

/-- Smallest value of the integer type: -2^(w-1) for signed, 0 for unsigned. -/
def minv (s : Bool) (w : Nat) : Int :=
  if s then -(2 ^ (w - 1)) else 0

/-- Largest value of the integer type: 2^(w-1) - 1 for signed, 2^w - 1 for unsigned. -/
def maxv (s : Bool) (w : Nat) : Int :=
  if s then 2 ^ (w - 1) - 1 else 2 ^ w - 1

/-- x is representable in the type (s, w). -/
def inRange (s : Bool) (w : Nat) (x : Int) : Prop :=
  minv s w ≤ x ∧ x ≤ maxv s w

instance (s : Bool) (w : Nat) (x : Int) : Decidable (inRange s w x) := by
  unfold inRange; infer_instance

/-- Native-width truncation: the representative of x modulo 2^w lying in
[minv, maxv]; modulo-2^w reduction for unsigned, two's complement for signed. -/
def wrap (s : Bool) (w : Nat) (x : Int) : Int :=
  if s then (x + 2 ^ (w - 1)) % 2 ^ w - 2 ^ (w - 1) else x % 2 ^ w

/-- Embedding of BrainMath::IntMath::mean, line 40 of IntMath.hpp:
return (a / 2) + (b / 2) + (a & b & 1).
C++ division truncates toward zero (Int.tdiv); bit 0 of a two's-complement
integer x is x % 2 (Euclidean mod), so a & b & 1 is 1 exactly when both
a % 2 = 1 and b % 2 = 1, else 0. -/
def mean (a b : Int) : Int :=
  a.tdiv 2 + b.tdiv 2 + (if a % 2 = 1 ∧ b % 2 = 1 then 1 else 0)

/-- Embedding of BrainMath::IntMath::add_overflow (manual path,
lines 64-75 of IntMath.hpp).  result = a + b truncated to the native
width; overflow per the sign-split comparisons of the source. -/
def add_overflow (s : Bool) (w : Nat) (a b : Int) : Int × Bool :=
  let result := wrap s w (a + b)
  let overflow :=
    if s then
      decide ((b > 0 ∧ a > maxv s w - b) ∨ (b < 0 ∧ a < minv s w - b))
    else
      decide (a > maxv s w - b)
  (result, overflow)

/-- Embedding of BrainMath::IntMath::sub_overflow (manual path,
lines 100-110 of IntMath.hpp). -/
def sub_overflow (s : Bool) (w : Nat) (a b : Int) : Int × Bool :=
  let result := wrap s w (a - b)
  let overflow :=
    if s then
      decide ((b < 0 ∧ a > maxv s w + b) ∨ (b > 0 ∧ a < minv s w + b))
    else
      decide (a < b)
  (result, overflow)

/-- Embedding of BrainMath::IntMath::mul_overflow (manual path,
lines 135-158 of IntMath.hpp).  The C++ divisions max/b, min/b, min/a
truncate toward zero, hence Int.tdiv. -/
def mul_overflow (s : Bool) (w : Nat) (a b : Int) : Int × Bool :=
  let result := wrap s w (a * b)
  let overflow :=
    if s then
      if a = 0 ∨ b = 0 then
        false
      else if a = -1 ∨ b = -1 then
        decide ((a = -1 ∧ b = minv s w) ∨ (b = -1 ∧ a = minv s w))
      else if a < 0 ∧ b < 0 then
        decide (a < (maxv s w).tdiv b)
      else if a < 0 then
        decide (a < (minv s w).tdiv b)
      else if b < 0 then
        decide (b < (minv s w).tdiv a)
      else
        decide (a > (maxv s w).tdiv b)
    else
      decide ((a ≠ 0 ∧ b ≠ 0) ∧ a > (maxv s w).tdiv b)
  (result, overflow)

/-- Model of the builtin path of add_overflow (line 59 of IntMath.hpp):
per the spec, __builtin_add_overflow is an exact range check on the
mathematical sum plus the wrapped-around result. -/
def add_overflow_builtin (s : Bool) (w : Nat) (a b : Int) : Int × Bool :=
  (wrap s w (a + b), decide (a + b < minv s w ∨ a + b > maxv s w))

/-- Model of the builtin path of sub_overflow (line 94 of IntMath.hpp). -/
def sub_overflow_builtin (s : Bool) (w : Nat) (a b : Int) : Int × Bool :=
  (wrap s w (a - b), decide (a - b < minv s w ∨ a - b > maxv s w))

/-- Model of the builtin path of mul_overflow (line 129 of IntMath.hpp). -/
def mul_overflow_builtin (s : Bool) (w : Nat) (a b : Int) : Int × Bool :=
  (wrap s w (a * b), decide (a * b < minv s w ∨ a * b > maxv s w))

/-- Error codes written to errno by this module; EDOM is the only one. -/
inductive ErrnoCode where
  | EDOM
deriving DecidableEq

/-- State of the domain-error side channel: the current errno content and
whether the FE_INVALID floating-point exception flag is raised. -/
structure FpEnv where
  errno : Option ErrnoCode
  feInvalid : Bool
deriving DecidableEq

/-- std::numeric_limits digits: non-sign bits of the type. -/
def digits (s : Bool) (w : Nat) : Nat :=
  if s then w - 1 else w

/-- Embedding of the while (true) binary-search loop of sqrt
(IntMath.hpp lines 207-225).  One recursive call per iteration; the
source's mutation of left/right becomes the changed arguments, and the
post-assignment exit test right - left < 2 is checked on the updated
bound before the next iteration. -/
def sqrtLoop (s : Bool) (w : Nat) (val left right : Int) : Int :=
  let middle := (left + right).tdiv 2
  let square := mul_overflow s w middle middle
  if square.2 = true ∨ square.1 > val then
    if middle - left < 2 then left else sqrtLoop s w val left middle
  else if square.1 < val then
    if right - middle < 2 then middle else sqrtLoop s w val middle right
  else middle
termination_by (right - left).toNat
decreasing_by
  all_goals
    have hb : left + right - 1 ≤ 2 * (left + right).tdiv 2 ∧
        2 * (left + right).tdiv 2 ≤ left + right + 1 := by
      rcases le_total 0 (left + right) with h | h
      · rw [Int.tdiv_eq_ediv h (by norm_num)]
        omega
      · have h2 : (0 : Int) ≤ -(left + right) := by omega
        have h3 : (-(left + right)).tdiv 2 = (-(left + right)) / 2 :=
          Int.tdiv_eq_ediv h2 (by norm_num)
        have h4 : (left + right).tdiv 2 = -((-(left + right)) / 2) := by
          rw [← h3, Int.neg_tdiv, neg_neg]
        rw [h4]
        omega
    omega

/-- Fuel-indexed variant of sqrtLoop: returns none when the fuel is
exhausted before the loop exits.  Used to state that the loop terminates
within right - left iterations. -/
def sqrtLoopF (s : Bool) (w : Nat) : Nat → Int → Int → Int → Option Int
  | 0, _, _, _ => none
  | fuel + 1, val, left, right =>
    let middle := (left + right).tdiv 2
    let square := mul_overflow s w middle middle
    if square.2 = true ∨ square.1 > val then
      if middle - left < 2 then some left else sqrtLoopF s w fuel val left middle
    else if square.1 < val then
      if right - middle < 2 then some middle else sqrtLoopF s w fuel val middle right
    else some middle

/-- Embedding of BrainMath::IntMath::sqrt (IntMath.hpp lines 175-226).
max_right embeds max >> (digits / 2) + 1; the shifted operand is
nonnegative so the arithmetic right shift is division by 2^(digits/2).
The negative branch sets errno to EDOM, raises FE_INVALID and returns -1;
all other branches leave the side channel untouched. -/
def sqrt (s : Bool) (w : Nat) (val : Int) (env : FpEnv) : Int × FpEnv :=
  let max_right := (maxv s w) / 2 ^ (digits s w / 2) + 1
  if val < 0 then
    (-1, { errno := some ErrnoCode.EDOM, feInvalid := true })
  else if val = 0 then
    (0, env)
  else if val < 4 then
    (1, env)
  else
    (sqrtLoop s w val 2 (min (val.tdiv 2) max_right), env)

/-!  Arithmetic helper lemmas about truncated division and wraparound. -/

/-- Truncated division by a positive divisor of a nonnegative dividend agrees
with Euclidean division, so the strict upper-bound characterization holds. -/
lemma tdiv_lt_iff (x y c : Int) (hx : 0 ≤ x) (hc : 0 < c) :
    x.tdiv c < y ↔ x < y * c := by
  rw [Int.tdiv_eq_ediv hx (le_of_lt hc)]
  exact Int.ediv_lt_iff_lt_mul hc

/-- Truncated division by 2 is within one of half the dividend. -/
lemma two_mul_tdiv_two_bounds (a : Int) :
    a - 1 ≤ 2 * a.tdiv 2 ∧ 2 * a.tdiv 2 ≤ a + 1 := by
  rcases le_total 0 a with h | h
  · rw [Int.tdiv_eq_ediv h (by norm_num)]
    omega
  · have h2 : (0 : Int) ≤ -a := by omega
    have h3 : (-a).tdiv 2 = (-a) / 2 := Int.tdiv_eq_ediv h2 (by norm_num)
    have h4 : a.tdiv 2 = -((-a) / 2) := by
      rw [← h3, Int.neg_tdiv, neg_neg]
    rw [h4]
    omega

/-- For nonnegative dividends, truncated division by 2 is Euclidean division. -/
lemma tdiv_two_nonneg (a : Int) (h : 0 ≤ a) : a.tdiv 2 = a / 2 :=
  Int.tdiv_eq_ediv h (by norm_num)

/-- In the signed case the modulus 2^w splits as twice the half-range. -/
lemma two_pow_split (w : Nat) (hw : 0 < w) :
    (2 : Int) ^ w = 2 * 2 ^ (w - 1) := by
  rw [← pow_succ']
  congr 1
  omega

/-- wrap lands in the representable range of the type. -/
lemma wrap_range (s : Bool) (w : Nat) (hw : 0 < w) (x : Int) :
    minv s w ≤ wrap s w x ∧ wrap s w x ≤ maxv s w := by
  cases s with
  | false =>
    have hN : (0 : Int) < 2 ^ w := by positivity
    have h1 := Int.emod_nonneg x (by omega : (2:Int) ^ w ≠ 0)
    have h2 := Int.emod_lt_of_pos x hN
    simp only [wrap, minv, maxv, if_neg, Bool.false_eq_true, if_false]
    omega
  | true =>
    have hm : (0 : Int) < 2 ^ (w - 1) := by positivity
    have hsplit := two_pow_split w hw
    have hN : (0 : Int) < 2 ^ w := by positivity
    have h1 := Int.emod_nonneg (x + 2 ^ (w - 1)) (by omega : (2:Int) ^ w ≠ 0)
    have h2 := Int.emod_lt_of_pos (x + 2 ^ (w - 1)) hN
    simp only [wrap, minv, maxv, if_pos]
    omega

/-- wrap is the identity on representable values. -/
lemma wrap_eq_self (s : Bool) (w : Nat) (hw : 0 < w) (x : Int)
    (h : inRange s w x) : wrap s w x = x := by
  rcases h with ⟨h1, h2⟩
  cases s with
  | false =>
    simp only [minv, maxv, Bool.false_eq_true, if_false] at h1 h2
    simp only [wrap, Bool.false_eq_true, if_false]
    exact Int.emod_eq_of_lt h1 (by omega)
  | true =>
    have hsplit := two_pow_split w hw
    simp only [minv, maxv, if_pos] at h1 h2
    simp only [wrap, if_pos]
    rw [Int.emod_eq_of_lt (by omega) (by omega)]
    omega

/-- wrap preserves the residue modulo 2^w. -/
lemma wrap_emod (s : Bool) (w : Nat) (x : Int) :
    wrap s w x % 2 ^ w = x % 2 ^ w := by
  cases s with
  | false =>
    simp only [wrap, Bool.false_eq_true, if_false, Int.emod_emod_of_dvd _ (dvd_refl _)]
  | true =>
    simp only [wrap, if_pos]
    rw [Int.sub_emod, Int.emod_emod_of_dvd _ (dvd_refl _), ← Int.sub_emod,
      add_sub_cancel_right]

/-!  Overflow-flag characterizations: the manual overflow predicates of the
source are exact range checks on the mathematical result. -/

/-- The manual add overflow flag is set exactly when the true sum is
out of range. -/
lemma add_flag_iff (s : Bool) (w : Nat) (a b : Int) (hw : 0 < w)
    (ha : inRange s w a) (hb : inRange s w b) :
    (add_overflow s w a b).2 = true ↔
      (a + b < minv s w ∨ a + b > maxv s w) := by
  rcases ha with ⟨ha1, ha2⟩
  rcases hb with ⟨hb1, hb2⟩
  cases s with
  | false =>
    simp only [minv, maxv, Bool.false_eq_true, if_false] at ha1 ha2 hb1 hb2
    simp [add_overflow, minv, maxv]
    omega
  | true =>
    have hm : (0 : Int) < 2 ^ (w - 1) := by positivity
    simp only [minv, maxv, if_pos] at ha1 ha2 hb1 hb2
    simp [add_overflow, minv, maxv]
    omega

/-- The manual sub overflow flag is set exactly when the true difference is
out of range. -/
lemma sub_flag_iff (s : Bool) (w : Nat) (a b : Int) (hw : 0 < w)
    (ha : inRange s w a) (hb : inRange s w b) :
    (sub_overflow s w a b).2 = true ↔
      (a - b < minv s w ∨ a - b > maxv s w) := by
  rcases ha with ⟨ha1, ha2⟩
  rcases hb with ⟨hb1, hb2⟩
  cases s with
  | false =>
    simp only [minv, maxv, Bool.false_eq_true, if_false] at ha1 ha2 hb1 hb2
    simp [sub_overflow, minv, maxv]
    omega
  | true =>
    have hm : (0 : Int) < 2 ^ (w - 1) := by positivity
    simp only [minv, maxv, if_pos] at ha1 ha2 hb1 hb2
    simp [sub_overflow, minv, maxv]
    omega

/-- The manual mul overflow flag is set exactly when the true product is
out of range. -/
lemma mul_flag_iff (s : Bool) (w : Nat) (a b : Int) (hw : 0 < w)
    (ha : inRange s w a) (hb : inRange s w b) :
    (mul_overflow s w a b).2 = true ↔
      (a * b < minv s w ∨ a * b > maxv s w) := by
  rcases ha with ⟨ha1, ha2⟩
  rcases hb with ⟨hb1, hb2⟩
  cases s with
  | false =>
    simp only [minv, maxv, Bool.false_eq_true, if_false] at ha1 ha2 hb1 hb2
    have hN : (0 : Int) < 2 ^ w := by positivity
    by_cases h0 : a = 0 ∨ b = 0
    · rcases h0 with h | h <;> subst h <;> simp [mul_overflow, minv, maxv] <;> omega
    · push_neg at h0
      have hb3 : 0 < b := by omega
      have key := tdiv_lt_iff (2 ^ w - 1) a b (by omega) hb3
      have hab : 0 ≤ a * b := mul_nonneg (by omega) (by omega)
      simp [mul_overflow, minv, maxv, h0.1, h0.2]
      omega
  | true =>
    simp only [minv, maxv, if_pos] at ha1 ha2 hb1 hb2
    have hm : (0 : Int) < 2 ^ (w - 1) := by positivity
    by_cases h0 : a = 0 ∨ b = 0
    · rcases h0 with h | h <;> subst h <;> simp [mul_overflow, minv, maxv] <;> omega
    · push_neg at h0
      by_cases h1 : a = -1 ∨ b = -1
      · rcases h1 with h | h
        · subst h
          simp [mul_overflow, minv, maxv, h0.2]
          omega
        · subst h
          simp [mul_overflow, minv, maxv, h0.1]
          omega
      · push_neg at h1
        by_cases h2 : a < 0 ∧ b < 0
        · have hb4 : (0 : Int) < -b := by omega
          have key := tdiv_lt_iff (2 ^ (w - 1) - 1) (-a) (-b) (by omega) hb4
          have htd : (2 ^ (w - 1) - 1 : Int).tdiv b =
              -((2 ^ (w - 1) - 1 : Int).tdiv (-b)) := by
            conv_lhs => rw [show b = -(-b) by ring]
            rw [Int.tdiv_neg]
          have hpos : 0 < a * b := mul_pos_of_neg_of_neg h2.1 h2.2
          have hneg : (-a) * (-b) = a * b := by ring
          rw [hneg] at key
          simp [mul_overflow, minv, maxv, h0.1, h0.2, h1.1, h1.2, h2.1, h2.2]
          rw [htd]
          omega
        · by_cases h3 : a < 0
          · have hb4 : (0 : Int) < b := by
              have : ¬b < 0 := fun hb5 => h2 ⟨h3, hb5⟩
              omega
            have hb5 : ¬b < 0 := by omega
            have key := tdiv_lt_iff (2 ^ (w - 1)) (-a) b (by positivity) hb4
            have hub : a * b ≤ -1 * b := by
              have := mul_le_mul_of_nonneg_right (show a ≤ -1 by omega) (le_of_lt hb4)
              simpa using this
            have hneg : (-a) * b = -(a * b) := by ring
            rw [hneg] at key
            simp [mul_overflow, minv, maxv, h0.1, h0.2, h1.1, h1.2, h3, hb5]
            omega
          · by_cases h4 : b < 0
            · have ha4 : (0 : Int) < a := by omega
              have key := tdiv_lt_iff (2 ^ (w - 1)) (-b) a (by positivity) ha4
              have hub : b * a ≤ -1 * a := by
                have := mul_le_mul_of_nonneg_right (show b ≤ -1 by omega) (le_of_lt ha4)
                simpa using this
              have hcomm : b * a = a * b := by ring
              rw [hcomm] at hub
              have hneg : (-b) * a = -(a * b) := by ring
              rw [hneg] at key
              simp [mul_overflow, minv, maxv, h0.1, h0.2, h1.1, h1.2, h2, h3, h4]
              omega
            · have ha4 : (0 : Int) < a := by omega
              have hb4 : (0 : Int) < b := by omega
              have key := tdiv_lt_iff (2 ^ (w - 1) - 1) a b (by omega) hb4
              have hpos : 0 < a * b := mul_pos ha4 hb4
              simp [mul_overflow, minv, maxv, h0.1, h0.2, h1.1, h1.2, h2, h3, h4]
              omega

/-- Projection of the checked multiply: the value component is always the
wrapped product. -/
lemma mul_overflow_fst (s : Bool) (w : Nat) (a b : Int) :
    (mul_overflow s w a b).1 = wrap s w (a * b) := rfl

/-- Projection of the checked add. -/
lemma add_overflow_fst (s : Bool) (w : Nat) (a b : Int) :
    (add_overflow s w a b).1 = wrap s w (a + b) := rfl

/-- Projection of the checked sub. -/
lemma sub_overflow_fst (s : Bool) (w : Nat) (a b : Int) :
    (sub_overflow s w a b).1 = wrap s w (a - b) := rfl

/-- The type minimum is never positive. -/
lemma minv_nonpos (s : Bool) (w : Nat) : minv s w ≤ 0 := by
  cases s <;> simp [minv]

/-- The loop exits within its fuel whenever the fuel exceeds the initial
gap right - left, and then computes exactly what the unbounded loop
computes: the gap strictly decreases on every iteration. -/
lemma sqrtLoopF_eq (s : Bool) (w : Nat) (fuel : Nat) :
    ∀ val left right : Int, (right - left).toNat < fuel →
      sqrtLoopF s w fuel val left right = some (sqrtLoop s w val left right) := by
  induction fuel with
  | zero =>
    intro val left right h
    omega
  | succ n ih =>
    intro val left right h
    have hb := two_mul_tdiv_two_bounds (left + right)
    rw [sqrtLoop, sqrtLoopF]
    split_ifs with h1 h2 h3 h4
    · rfl
    · exact ih val left ((left + right).tdiv 2) (by omega)
    · rfl
    · exact ih val ((left + right).tdiv 2) right (by omega)
    · rfl

/-- Invariant preservation for the binary-search loop: from a state with
left squared at most val, val below (right+1) squared, and (strictly
between the bounds) val below right squared, the loop returns the floor
square root of val. -/
lemma sqrtLoopF_spec (s : Bool) (w : Nat) (hw : 0 < w) (fuel : Nat) :
    ∀ val left right r : Int,
      sqrtLoopF s w fuel val left right = some r →
      2 ≤ left → left ≤ right → right ≤ maxv s w → val ≤ maxv s w →
      left * left ≤ val → val < (right + 1) * (right + 1) →
      (left < right → val < right * right) →
      0 ≤ r ∧ r * r ≤ val ∧ val < (r + 1) * (r + 1) := by
  induction fuel with
  | zero =>
    intro val left right r heq
    simp [sqrtLoopF] at heq
  | succ n ih =>
    intro val left right r heq hl2 hlr hrm hvm hls hrs hcond
    simp only [sqrtLoopF] at heq
    have hb := two_mul_tdiv_two_bounds (left + right)
    set middle := (left + right).tdiv 2 with hmid
    have hml : left ≤ middle := by omega
    have hmr : middle ≤ right := by omega
    have hm0 : (0 : Int) ≤ middle := by omega
    have hmrange : inRange s w middle :=
      ⟨by have := minv_nonpos s w; omega, by omega⟩
    have hflag := mul_flag_iff s w middle middle hw hmrange hmrange
    split_ifs at heq with h1 h2 h3 h4
    · -- overflow or square above val; gap closed: return left
      injection heq with h
      subst h
      have hvm2 : val < middle * middle := by
        by_cases hf : (mul_overflow s w middle middle).2 = true
        · have hoor := hflag.mp hf
          have hmm : 0 ≤ middle * middle := mul_nonneg hm0 hm0
          have := minv_nonpos s w
          omega
        · have hno := mt hflag.mpr hf
          have hio : inRange s w (middle * middle) := ⟨by omega, by omega⟩
          have hwrap : (mul_overflow s w middle middle).1 = middle * middle := by
            rw [mul_overflow_fst]
            exact wrap_eq_self s w hw _ hio
          rcases h1 with hf2 | hgt
          · exact absurd hf2 hf
          · rw [hwrap] at hgt
            omega
      have hsq : middle * middle ≤ (left + 1) * (left + 1) :=
        mul_self_le_mul_self hm0 (by omega)
      exact ⟨by omega, hls, by omega⟩
    · -- overflow or square above val; recurse on (left, middle)
      have hvm2 : val < middle * middle := by
        by_cases hf : (mul_overflow s w middle middle).2 = true
        · have hoor := hflag.mp hf
          have hmm : 0 ≤ middle * middle := mul_nonneg hm0 hm0
          have := minv_nonpos s w
          omega
        · have hno := mt hflag.mpr hf
          have hio : inRange s w (middle * middle) := ⟨by omega, by omega⟩
          have hwrap : (mul_overflow s w middle middle).1 = middle * middle := by
            rw [mul_overflow_fst]
            exact wrap_eq_self s w hw _ hio
          rcases h1 with hf2 | hgt
          · exact absurd hf2 hf
          · rw [hwrap] at hgt
            omega
      have hsq : middle * middle ≤ (middle + 1) * (middle + 1) :=
        mul_self_le_mul_self hm0 (by omega)
      exact ih val left middle r heq hl2 hml (by omega) hvm hls (by omega)
        (fun _ => hvm2)
    · -- square strictly below val; gap closed: return middle
      injection heq with h
      subst h
      have hf : ¬(mul_overflow s w middle middle).2 = true := fun hx => h1 (Or.inl hx)
      have hno := mt hflag.mpr hf
      have hio : inRange s w (middle * middle) := ⟨by omega, by omega⟩
      have hwrap : (mul_overflow s w middle middle).1 = middle * middle := by
        rw [mul_overflow_fst]
        exact wrap_eq_self s w hw _ hio
      rw [hwrap] at h3
      have hcase : right = middle ∨ right = middle + 1 := by omega
      rcases hcase with he | he
      · rw [he] at hrs
        exact ⟨by omega, by omega, hrs⟩
      · have hlt2 : left < right := by omega
        have := hcond hlt2
        rw [he] at this
        exact ⟨by omega, by omega, this⟩
    · -- square strictly below val; recurse on (middle, right)
      have hf : ¬(mul_overflow s w middle middle).2 = true := fun hx => h1 (Or.inl hx)
      have hno := mt hflag.mpr hf
      have hio : inRange s w (middle * middle) := ⟨by omega, by omega⟩
      have hwrap : (mul_overflow s w middle middle).1 = middle * middle := by
        rw [mul_overflow_fst]
        exact wrap_eq_self s w hw _ hio
      rw [hwrap] at h3
      exact ih val middle right r heq (by omega) hmr hrm hvm (le_of_lt h3) hrs
        (fun h => hcond (by omega))
    · -- square equals val: return middle
      injection heq with h
      subst h
      push_neg at h1 h3
      have hf : ¬(mul_overflow s w middle middle).2 = true := by
        simpa using h1.1
      have hno := mt hflag.mpr hf
      have hio : inRange s w (middle * middle) := ⟨by omega, by omega⟩
      have hwrap : (mul_overflow s w middle middle).1 = middle * middle := by
        rw [mul_overflow_fst]
        exact wrap_eq_self s w hw _ hio
      have hle := h1.2
      rw [hwrap] at hle h3
      have heqv : middle * middle = val := by omega
      have hsq : middle * middle < (middle + 1) * (middle + 1) :=
        mul_self_lt_mul_self hm0 (lt_add_one _)
      exact ⟨by omega, by omega, by omega⟩

/-- Monotonicity of integer powers of two. -/
lemma two_pow_le_two_pow (n m : Nat) (h : n ≤ m) : (2 : Int) ^ n ≤ 2 ^ m := by
  have := Nat.pow_le_pow_right (show 0 < 2 by norm_num) h
  exact_mod_cast this

/-- The type maximum written through the digit count. -/
lemma maxv_eq (s : Bool) (w : Nat) : maxv s w = 2 ^ digits s w - 1 := by
  cases s <;> simp [maxv, digits]

/-- Closed form of the max_right constant of sqrt: shifting the all-ones
maximum right by half the digits and adding one gives a power of two. -/
lemma mr_eq (d : Nat) : ((2 : Int) ^ d - 1) / 2 ^ (d / 2) + 1 = 2 ^ (d - d / 2) := by
  have h1 : (0 : Int) < 2 ^ (d / 2) := by positivity
  have hsplit : (2 : Int) ^ d = 2 ^ (d / 2) * 2 ^ (d - d / 2) := by
    rw [← pow_add]
    congr 1
    omega
  have hnum : (2 : Int) ^ d - 1 =
      (2 ^ (d / 2) - 1) + 2 ^ (d / 2) * (2 ^ (d - d / 2) - 1) := by
    rw [hsplit]
    ring
  rw [hnum, Int.add_mul_ediv_left _ _ (by omega),
    Int.ediv_eq_zero_of_lt (by omega) (by omega)]
  ring

/-- Full functional correctness of sqrt on nonnegative representable
inputs: it returns the floor of the real square root. -/
lemma sqrt_spec_aux (s : Bool) (w : Nat) (hw : 0 < w) (val : Int) (env : FpEnv)
    (h0 : 0 ≤ val) (h1 : val ≤ maxv s w) :
    0 ≤ (sqrt s w val env).1 ∧
      (sqrt s w val env).1 * (sqrt s w val env).1 ≤ val ∧
      val < ((sqrt s w val env).1 + 1) * ((sqrt s w val env).1 + 1) := by
  simp only [sqrt]
  split_ifs with hv0 hv1 hv2
  · omega
  · subst hv1
    norm_num
  · norm_num
    omega
  · -- binary-search branch: val ≥ 4
    have hv4 : 4 ≤ val := by omega
    set d := digits s w with hd
    have hmv : maxv s w = 2 ^ d - 1 := maxv_eq s w
    have hd3 : 3 ≤ d := by
      by_contra hc
      push_neg at hc
      have := two_pow_le_two_pow d 2 (by omega)
      omega
    set k := d / 2 with hk
    have hmr : maxv s w / 2 ^ k + 1 = 2 ^ (d - k) := by
      rw [hmv]
      exact mr_eq d
    rw [hmr]
    have hvd2 : val.tdiv 2 = val / 2 := tdiv_two_nonneg val h0
    have h2v : 2 ≤ val / 2 := by omega
    have hmr2 : (2 : Int) ≤ 2 ^ (d - k) := by
      calc (2 : Int) = 2 ^ 1 := (pow_one 2).symm
      _ ≤ 2 ^ (d - k) := two_pow_le_two_pow 1 (d - k) (by omega)
    have hmrsq : (2 : Int) ^ d ≤ 2 ^ (d - k) * 2 ^ (d - k) := by
      rw [← pow_add]
      exact two_pow_le_two_pow d ((d - k) + (d - k)) (by omega)
    set R := min (val.tdiv 2) ((2 : Int) ^ (d - k)) with hR
    have hR2 : 2 ≤ R := le_min (by omega) hmr2
    have hRmax : R ≤ maxv s w := by
      have hds : val / 2 ≤ val := Int.ediv_le_self 2 h0
      calc R ≤ val.tdiv 2 := min_le_left _ _
      _ = val / 2 := hvd2
      _ ≤ val := hds
      _ ≤ maxv s w := h1
    have hRub : val < (R + 1) * (R + 1) := by
      rcases le_total (val.tdiv 2) ((2 : Int) ^ (d - k)) with hmin | hmin
      · rw [hR, min_eq_left hmin, hvd2]
        have e2 : val ≤ 2 * (val / 2) + 1 := by omega
        have e4 : (2 : Int) * 2 ≤ (val / 2) * (val / 2) :=
          mul_le_mul h2v h2v (by norm_num) (by omega)
        nlinarith [e2, e4]
      · rw [hR, min_eq_right hmin]
        have hv_lt : val < (2 : Int) ^ (d - k) * 2 ^ (d - k) := by omega
        nlinarith [hv_lt, hmr2]
    have hRcond : 2 < R → val < R * R := by
      intro hlt
      rcases le_total (val.tdiv 2) ((2 : Int) ^ (d - k)) with hmin | hmin
      · rw [hR, min_eq_left hmin, hvd2] at hlt ⊢
        have e2 : val ≤ 2 * (val / 2) + 1 := by omega
        have e4 : (3 : Int) * (val / 2) ≤ (val / 2) * (val / 2) :=
          mul_le_mul_of_nonneg_right (show (3 : Int) ≤ val / 2 by omega)
            (show (0 : Int) ≤ val / 2 by omega)
        nlinarith [e2, e4]
      · rw [hR, min_eq_right hmin]
        omega
    have hfuel := sqrtLoopF_eq s w ((R - 2).toNat + 1) val 2 R (by omega)
    exact sqrtLoopF_spec s w hw ((R - 2).toNat + 1) val 2 R
      (sqrtLoop s w val 2 R) hfuel (by norm_num) hR2 hRmax h1 (by omega)
      hRub (fun h => hRcond h)

/-- Two booleans agreeing as propositions are equal. -/
lemma bool_eq_of_iff {a b : Bool} (h : (a = true) ↔ (b = true)) : a = b := by
  cases a <;> cases b <;> simp_all

/-- Componentwise equality of result pairs. -/
lemma pair_eq {x y : Int × Bool} (h1 : x.1 = y.1) (h2 : x.2 = y.2) : x = y := by
  cases x
  cases y
  simp_all

/-!  Sanity checks mirroring the repository's unit-test expectations
(test/Test_IntMath.cpp and the examples of the specification). -/

example : mean 127 127 = 127 := by decide
example : mean (-1) (-1) = 1 := by decide
example : add_overflow true 8 127 1 = (-128, true) := by decide
example : sub_overflow true 8 (-128) 1 = (127, true) := by decide
example : mul_overflow true 8 64 2 = (-128, true) := by decide
example : mul_overflow true 8 (-1) (-128) = (-128, true) := by decide
example : mul_overflow true 8 (-1) (-1) = (1, false) := by decide
example : add_overflow false 8 255 255 = (254, true) := by decide
example : sub_overflow false 8 0 1 = (255, true) := by decide
example : (sqrt true 8 (-1) ⟨none, false⟩) = (-1, ⟨some ErrnoCode.EDOM, true⟩) := by decide
example : (sqrt false 8 3 ⟨none, false⟩).1 = 1 := by decide
example : (sqrt false 8 0 ⟨none, false⟩).1 = 0 := by decide
example : sqrtLoopF false 8 20 100 2 16 = some 10 := by decide
example : sqrtLoopF true 8 20 127 2 16 = some 11 := by decide
example : sqrtLoopF false 16 40 65535 2 256 = some 255 := by decide
example : sqrtLoopF true 16 40 32767 2 256 = some 181 := by decide
example : sqrtLoopF false 8 20 255 2 16 = some 15 := by decide
example : sqrtLoopF false 8 20 4 2 2 = some 2 := by decide

/-!  Claim theorems. -/

/-- C1: For every integer type (signedness s, positive width w) and every
pair of representable values a and b, the overflow flag returned by each
of add_overflow, sub_overflow and mul_overflow is true if and only if
the mathematically exact value of a + b, a - b, or a * b respectively
lies outside the representable interval [minv, maxv]. -/
theorem overflow_flag_exact (s : Bool) (w : Nat) (a b : Int) (hw : 0 < w)
    (ha : inRange s w a) (hb : inRange s w b) :
    ((add_overflow s w a b).2 = true ↔ (a + b < minv s w ∨ a + b > maxv s w)) ∧
      ((sub_overflow s w a b).2 = true ↔ (a - b < minv s w ∨ a - b > maxv s w)) ∧
      ((mul_overflow s w a b).2 = true ↔ (a * b < minv s w ∨ a * b > maxv s w)) :=
  ⟨add_flag_iff s w a b hw ha hb, sub_flag_iff s w a b hw ha hb,
    mul_flag_iff s w a b hw ha hb⟩

/-- Witness for C1 at the 8-bit signed pair (127, 1). -/
theorem overflow_flag_exact_witness :
    0 < 8 ∧ inRange true 8 127 ∧ inRange true 8 1 ∧
      (((add_overflow true 8 127 1).2 = true ↔
          ((127 : Int) + 1 < minv true 8 ∨ (127 : Int) + 1 > maxv true 8)) ∧
        ((sub_overflow true 8 127 1).2 = true ↔
          ((127 : Int) - 1 < minv true 8 ∨ (127 : Int) - 1 > maxv true 8)) ∧
        ((mul_overflow true 8 127 1).2 = true ↔
          ((127 : Int) * 1 < minv true 8 ∨ (127 : Int) * 1 > maxv true 8))) :=
  ⟨by decide, by decide, by decide,
    overflow_flag_exact true 8 127 1 (by decide) (by decide) (by decide)⟩

/-- C2: the claim that mean equals floor((a + b) / 2) for every pair of
every integer type fails on the code: at a = b = -1 (any signed type)
mean returns 1 although the floor of the exact mean is -1.  The division
a / 2 truncates toward zero, so for odd negative operands the correction
term a & b & 1 adjusts in the wrong direction. -/
theorem mean_breaks_floor_contract :
    mean (-1) (-1) = 1 ∧ ((-1 : Int) + (-1)).fdiv 2 = -1 := by
  decide

/-- C3: for every integer type and every nonnegative representable val,
r = sqrt(val) satisfies r ≥ 0, r * r ≤ val and (r + 1) * (r + 1) > val. -/
theorem sqrt_floor_root (s : Bool) (w : Nat) (val : Int) (env : FpEnv)
    (hw : 0 < w) (h0 : 0 ≤ val) (h1 : val ≤ maxv s w) :
    0 ≤ (sqrt s w val env).1 ∧
      (sqrt s w val env).1 * (sqrt s w val env).1 ≤ val ∧
      val < ((sqrt s w val env).1 + 1) * ((sqrt s w val env).1 + 1) :=
  sqrt_spec_aux s w hw val env h0 h1

/-- Witness for C3 at unsigned 8-bit input 100. -/
theorem sqrt_floor_root_witness :
    0 < 8 ∧ (0 : Int) ≤ 100 ∧ (100 : Int) ≤ maxv false 8 ∧
      (0 ≤ (sqrt false 8 100 ⟨none, false⟩).1 ∧
        (sqrt false 8 100 ⟨none, false⟩).1 * (sqrt false 8 100 ⟨none, false⟩).1 ≤ 100 ∧
        (100 : Int) < ((sqrt false 8 100 ⟨none, false⟩).1 + 1) *
          ((sqrt false 8 100 ⟨none, false⟩).1 + 1)) :=
  ⟨by decide, by decide, by decide,
    sqrt_floor_root false 8 100 ⟨none, false⟩ (by decide) (by decide) (by decide)⟩

/-- C4: the value component of each checked operation is the exact result
reduced to the native width: it is congruent to the exact result modulo
2^w and lies in the representable range (two's complement for signed,
modulo 2^w for unsigned), including when the overflow flag is true. -/
theorem overflow_value_wraparound (s : Bool) (w : Nat) (a b : Int) (hw : 0 < w) :
    ((add_overflow s w a b).1 % 2 ^ w = (a + b) % 2 ^ w ∧
        inRange s w (add_overflow s w a b).1) ∧
      ((sub_overflow s w a b).1 % 2 ^ w = (a - b) % 2 ^ w ∧
        inRange s w (sub_overflow s w a b).1) ∧
      ((mul_overflow s w a b).1 % 2 ^ w = (a * b) % 2 ^ w ∧
        inRange s w (mul_overflow s w a b).1) := by
  refine ⟨⟨?_, ?_⟩, ⟨?_, ?_⟩, ⟨?_, ?_⟩⟩
  · rw [add_overflow_fst]
    exact wrap_emod s w (a + b)
  · rw [add_overflow_fst]
    exact wrap_range s w hw (a + b)
  · rw [sub_overflow_fst]
    exact wrap_emod s w (a - b)
  · rw [sub_overflow_fst]
    exact wrap_range s w hw (a - b)
  · rw [mul_overflow_fst]
    exact wrap_emod s w (a * b)
  · rw [mul_overflow_fst]
    exact wrap_range s w hw (a * b)

/-- Witness for C4 at the overflowing 8-bit signed pair (100, 100). -/
theorem overflow_value_wraparound_witness :
    0 < 8 ∧
      (((add_overflow true 8 100 100).1 % 2 ^ 8 = ((100 : Int) + 100) % 2 ^ 8 ∧
          inRange true 8 (add_overflow true 8 100 100).1) ∧
        ((sub_overflow true 8 100 100).1 % 2 ^ 8 = ((100 : Int) - 100) % 2 ^ 8 ∧
          inRange true 8 (sub_overflow true 8 100 100).1) ∧
        ((mul_overflow true 8 100 100).1 % 2 ^ 8 = ((100 : Int) * 100) % 2 ^ 8 ∧
          inRange true 8 (mul_overflow true 8 100 100).1)) :=
  ⟨by decide, overflow_value_wraparound true 8 100 100 (by decide)⟩

/-- C5: the native-builtin strategy, modelled as an exact range check plus
wraparound, and the manual strategy return the same (value, overflowed)
pair for add, sub and mul on every representable input pair. -/
theorem builtin_matches_manual (s : Bool) (w : Nat) (a b : Int) (hw : 0 < w)
    (ha : inRange s w a) (hb : inRange s w b) :
    add_overflow_builtin s w a b = add_overflow s w a b ∧
      sub_overflow_builtin s w a b = sub_overflow s w a b ∧
      mul_overflow_builtin s w a b = mul_overflow s w a b := by
  refine ⟨pair_eq rfl ?_, pair_eq rfl ?_, pair_eq rfl ?_⟩
  · apply bool_eq_of_iff
    rw [show (add_overflow_builtin s w a b).2 =
        decide (a + b < minv s w ∨ a + b > maxv s w) from rfl,
      decide_eq_true_eq, add_flag_iff s w a b hw ha hb]
  · apply bool_eq_of_iff
    rw [show (sub_overflow_builtin s w a b).2 =
        decide (a - b < minv s w ∨ a - b > maxv s w) from rfl,
      decide_eq_true_eq, sub_flag_iff s w a b hw ha hb]
  · apply bool_eq_of_iff
    rw [show (mul_overflow_builtin s w a b).2 =
        decide (a * b < minv s w ∨ a * b > maxv s w) from rfl,
      decide_eq_true_eq, mul_flag_iff s w a b hw ha hb]

/-- Witness for C5 at the 8-bit signed pair (-100, 100). -/
theorem builtin_matches_manual_witness :
    0 < 8 ∧ inRange true 8 (-100) ∧ inRange true 8 100 ∧
      (add_overflow_builtin true 8 (-100) 100 = add_overflow true 8 (-100) 100 ∧
        sub_overflow_builtin true 8 (-100) 100 = sub_overflow true 8 (-100) 100 ∧
        mul_overflow_builtin true 8 (-100) 100 = mul_overflow true 8 (-100) 100) :=
  ⟨by decide, by decide, by decide,
    builtin_matches_manual true 8 (-100) 100 (by decide) (by decide) (by decide)⟩

/-- C6: sqrt on a negative input returns the sentinel -1, sets the errno
side channel to EDOM and raises the FE_INVALID flag; the embedding is a
total function, so no exception or panic is involved. -/
theorem sqrt_negative_domain_error (s : Bool) (w : Nat) (val : Int) (env : FpEnv)
    (hneg : val < 0) :
    sqrt s w val env = (-1, { errno := some ErrnoCode.EDOM, feInvalid := true }) := by
  simp [sqrt, hneg]

/-- Witness for C6 at signed 8-bit input -5. -/
theorem sqrt_negative_domain_error_witness :
    (-5 : Int) < 0 ∧
      sqrt true 8 (-5) ⟨none, false⟩ =
        (-1, { errno := some ErrnoCode.EDOM, feInvalid := true }) :=
  ⟨by decide, sqrt_negative_domain_error true 8 (-5) ⟨none, false⟩ (by decide)⟩

/-- C7: the claim min(a,b) ≤ mean(a,b) ≤ max(a,b) fails on the code for
signed types: at a = b = -1 the code returns mean = 1, which exceeds
max(-1,-1) = -1.  This is the same wrong-direction rounding slip as in
the floor contract of mean. -/
theorem mean_above_max_of_inputs : max (-1 : Int) (-1) < mean (-1) (-1) := by
  decide

/-- C8: checked addition and checked multiplication are commutative as
full (value, overflowed) pairs on every representable input pair. -/
theorem add_mul_commute (s : Bool) (w : Nat) (a b : Int) (hw : 0 < w)
    (ha : inRange s w a) (hb : inRange s w b) :
    add_overflow s w a b = add_overflow s w b a ∧
      mul_overflow s w a b = mul_overflow s w b a := by
  constructor
  · refine pair_eq ?_ ?_
    · rw [add_overflow_fst, add_overflow_fst, add_comm]
    · apply bool_eq_of_iff
      rw [add_flag_iff s w a b hw ha hb, add_flag_iff s w b a hw hb ha,
        add_comm a b]
  · refine pair_eq ?_ ?_
    · rw [mul_overflow_fst, mul_overflow_fst, mul_comm]
    · apply bool_eq_of_iff
      rw [mul_flag_iff s w a b hw ha hb, mul_flag_iff s w b a hw hb ha,
        mul_comm a b]

/-- Witness for C8 at the 8-bit signed pair (117, -23). -/
theorem add_mul_commute_witness :
    0 < 8 ∧ inRange true 8 117 ∧ inRange true 8 (-23) ∧
      (add_overflow true 8 117 (-23) = add_overflow true 8 (-23) 117 ∧
        mul_overflow true 8 117 (-23) = mul_overflow true 8 (-23) 117) :=
  ⟨by decide, by decide, by decide,
    add_mul_commute true 8 117 (-23) (by decide) (by decide) (by decide)⟩

/-- C9: the binary-search loop of sqrt terminates: the gap right - left
strictly decreases on every iteration, so with any fuel exceeding the
initial gap the fuel-bounded loop exits with the same result as the
unbounded loop, for every signedness, width, input and pair of bounds,
including the loose approxMaxRoot initial bound. -/
theorem sqrt_loop_terminates (s : Bool) (w : Nat) (fuel : Nat)
    (val left right : Int) (hfuel : (right - left).toNat < fuel) :
    sqrtLoopF s w fuel val left right = some (sqrtLoop s w val left right) :=
  sqrtLoopF_eq s w fuel val left right hfuel

/-- Witness for C9: unsigned 8-bit input 100 with the source's initial
bounds left = 2, right = min(100/2, 16) = 16 and fuel 15. -/
theorem sqrt_loop_terminates_witness :
    ((16 : Int) - 2).toNat < 15 ∧
      sqrtLoopF false 8 15 100 2 16 = some (sqrtLoop false 8 100 2 16) :=
  ⟨by decide, sqrt_loop_terminates false 8 15 100 2 16 (by decide)⟩

/-- C10: on every nonnegative input, sqrt leaves the domain-error side
channel untouched: the returned environment is exactly the initial one;
only the negative-input branch writes errno or raises a flag. -/
theorem sqrt_nonneg_preserves_env (s : Bool) (w : Nat) (val : Int) (env : FpEnv)
    (h0 : 0 ≤ val) : (sqrt s w val env).2 = env := by
  simp only [sqrt]
  split_ifs with h1 h2 h3
  · omega
  · rfl
  · rfl
  · rfl

/-- Witness for C10 at signed 8-bit input 2 with a clean environment. -/
theorem sqrt_nonneg_preserves_env_witness :
    (0 : Int) ≤ 2 ∧ (sqrt true 8 2 ⟨none, false⟩).2 = ⟨none, false⟩ :=
  ⟨by decide, sqrt_nonneg_preserves_env true 8 2 ⟨none, false⟩ (by decide)⟩

end IntMath
end BrainMath
